import Mathlib

/-!
Verification of the singly linked list module `libadt/src/list.c`.

The C module is embedded shallowly.  A `void *` data pointer is an
element of an arbitrary type `α`; a node pointer is a natural-number
heap address, with `none` standing for NULL.  The allocator (`malloc`)
is modelled by a strictly increasing fresh-address counter together
with a boolean oracle saying whether the allocation succeeds; `free`
removes the binding from the heap.  Each C function becomes a Lean
function on an explicit state; functions that can abort (a failed
`assert`) or hit undefined behaviour (dereferencing an invalid
pointer) return `Option`, with `none` marking that the C program does
not continue normally.
-/

set_option maxHeartbeats 1000000

variable {α : Type}

/-- One list node, `struct ADT_sl_node`: the stored datum (the C
`void *data`) and the successor pointer (`none` = NULL, `some a` = a
pointer to heap address `a`). -/
structure ADT_sl_node (α : Type) where
  data : α
  next : Option Nat
deriving DecidableEq

/-- The list header, `struct ADT_sl_list`: head pointer, tail pointer
and the `unsigned int len` field. -/
structure ADT_sl_list where
  head : Option Nat
  tail : Option Nat
  len : Nat
deriving DecidableEq

/-- The heap of currently allocated nodes, as an association list from
addresses to nodes; the first binding for an address is the live one. -/
abbrev Heap (α : Type) : Type := List (Nat × ADT_sl_node α)

/-- Dereference a node pointer: the node currently stored at address
`a`, or `none` if `a` is unallocated. -/
def hget (H : Heap α) (a : Nat) : Option (ADT_sl_node α) :=
  match H with
  | [] => none
  | (b, nd) :: rest => if b = a then some nd else hget rest a

/-- Overwrite the node stored at address `a` (a store through a node
pointer); a no-op when `a` is unallocated. -/
def hset (H : Heap α) (a : Nat) (nd : ADT_sl_node α) : Heap α :=
  match H with
  | [] => []
  | (b, nd0) :: rest => if b = a then (b, nd) :: rest else (b, nd0) :: hset rest a nd

/-- Deallocate address `a` (the C `free`): remove its live binding. -/
def hfree (H : Heap α) (a : Nat) : Heap α :=
  match H with
  | [] => []
  | (b, nd) :: rest => if b = a then rest else (b, nd) :: hfree rest a

/-- The store `p->next = nx` for a node pointer `p`: fails (undefined
behaviour in C) when `p` is not an allocated node. -/
def setNext (H : Heap α) (a : Nat) (nx : Option Nat) : Option (Heap α) :=
  match hget H a with
  | none => none
  | some nd => some (hset H a ⟨nd.data, nx⟩)

/-- The full machine state: the node heap, the fresh-address counter of
the allocator, and the list header being operated on. -/
structure State (α : Type) where
  heap : Heap α
  fresh : Nat
  lst : ADT_sl_list
deriving DecidableEq

/-- Embeds `ADT_sl_list_init`: head and tail NULL, length zero. -/
def ADT_sl_list_init : ADT_sl_list :=
  ⟨none, none, 0⟩

/-- A freshly initialized list together with an empty heap: the state
right after the caller allocates the struct and calls
`ADT_sl_list_init`. -/
def initState : State α :=
  ⟨[], 0, ADT_sl_list_init⟩

/-- Embeds `ADT_sl_list_length`: returns the `len` field. -/
def ADT_sl_list_length (s : State α) : Nat :=
  s.lst.len

/-- Embeds `ADT_sl_list_push`.  `allocOk` is the allocator oracle: when
`false`, `malloc` returns NULL and the function returns `-1` without
touching the list; when `true` the new node is placed at the fresh
address, becomes the head (and also the tail if the list was empty),
and the length is incremented.  Returns the C `int` result paired with
the state after the call. -/
def ADT_sl_list_push (s : State α) (data : α) (allocOk : Bool) : Int × State α :=
  if allocOk then
    let a := s.fresh
    let t := if ADT_sl_list_length s = 0 then some a else s.lst.tail
    (0, ⟨(a, ⟨data, s.lst.head⟩) :: s.heap, a + 1, ⟨some a, t, s.lst.len + 1⟩⟩)
  else (-1, s)

/-- Embeds `ADT_sl_list_pop`.  `none` means the C program does not
return normally: the `assert(length != 0)` aborts on an empty list (and
dereferencing an invalid head pointer would be undefined behaviour).
Otherwise the head node is removed and freed, its datum is returned,
and the length is decremented; the tail field is not touched. -/
def ADT_sl_list_pop (s : State α) : Option (α × State α) :=
  if ADT_sl_list_length s ≠ 0 then
    match s.lst.head with
    | none => none
    | some a =>
      match hget s.heap a with
      | none => none
      | some nd =>
        some (nd.data, ⟨hfree s.heap a, s.fresh, ⟨nd.next, s.lst.tail, s.lst.len - 1⟩⟩)
  else none

/-- Embeds `ADT_sl_list_append`.  On an empty list the C code calls
`ADT_sl_list_push(list, data)` and discards its return value, then
falls through to `return 0`.  On a non-empty list it allocates a node
(returning `-1` if `malloc` fails), links it after the current tail and
makes it the new tail.  `none` marks undefined behaviour (dereferencing
an invalid tail pointer), impossible on well-formed lists. -/
def ADT_sl_list_append (s : State α) (data : α) (allocOk : Bool) : Option (Int × State α) :=
  if ADT_sl_list_length s = 0 then
    some (0, (ADT_sl_list_push s data allocOk).2)
  else
    if allocOk then
      match s.lst.tail with
      | none => none
      | some t =>
        let a := s.fresh
        match setNext ((a, ⟨data, none⟩) :: s.heap) t (some a) with
        | none => none
        | some H2 => some (0, ⟨H2, a + 1, ⟨s.lst.head, some a, s.lst.len + 1⟩⟩)
    else some (-1, s)

/-- Embeds `ADT_sl_list_insert_after`.  On allocation failure returns
`-1` with the state untouched.  Otherwise the new node is placed at the
fresh address, takes over `loc`'s successor, becomes `loc`'s successor,
becomes the tail if `loc` was the tail (pointer comparison
`loc == list->tail`), and the length is incremented.  `none` marks
undefined behaviour (`loc` is not an allocated node). -/
def ADT_sl_list_insert_after (s : State α) (loc : Nat) (data : α) (allocOk : Bool) :
    Option (Int × State α) :=
  if allocOk then
    match hget s.heap loc with
    | none => none
    | some locNd =>
      let a := s.fresh
      let t := if s.lst.tail = some loc then some a else s.lst.tail
      match setNext ((a, ⟨data, locNd.next⟩) :: s.heap) loc (some a) with
      | none => none
      | some H2 => some (0, ⟨H2, a + 1, ⟨s.lst.head, t, s.lst.len + 1⟩⟩)
  else some (-1, s)

/-- Embeds `ADT_sl_list_remove_after`.  `none` means the C program does
not return normally: the `assert(loc != list->tail)` aborts when `loc`
is the tail, and dereferencing an invalid `loc` or a NULL `loc->next`
is undefined behaviour.  Otherwise the successor of `loc` is unlinked
and freed, its datum is returned and the length is decremented; the
tail field is not touched. -/
def ADT_sl_list_remove_after (s : State α) (loc : Nat) : Option (α × State α) :=
  if s.lst.tail = some loc then none
  else
    match hget s.heap loc with
    | none => none
    | some locNd =>
      match locNd.next with
      | none => none
      | some p =>
        match hget s.heap p with
        | none => none
        | some pNd =>
          match setNext s.heap loc pNd.next with
          | none => none
          | some H2 =>
            some (pNd.data, ⟨hfree H2 p, s.fresh, ⟨s.lst.head, s.lst.tail, s.lst.len - 1⟩⟩)

/-- The `while (length != 0) pop` loop of `ADT_sl_list_destroy`, run
with an explicit fuel (the loop runs `length` times on a well-formed
list).  Returns the data handed to the destructor callback, in order,
together with the state after the loop. -/
def destroyLoop : Nat → State α → List α × State α
  | 0, s => ([], s)
  | fuel + 1, s =>
    if ADT_sl_list_length s ≠ 0 then
      match ADT_sl_list_pop s with
      | none => ([], s)
      | some (d, s1) =>
        let r := destroyLoop fuel s1
        (d :: r.1, r.2)
    else ([], s)

/-- Embeds `ADT_sl_list_destroy`: pop every element, passing each datum
to the destructor callback (the returned list records those calls in
order), then set head and tail to NULL. -/
def ADT_sl_list_destroy (s : State α) : List α × State α :=
  let r := destroyLoop (ADT_sl_list_length s) s
  (r.1, ⟨r.2.heap, r.2.fresh, ⟨none, none, r.2.lst.len⟩⟩)

/-- Iterated successful pushes, in order of the given list. -/
def pushAll (s : State α) : List α → State α
  | [] => s
  | d :: ds => pushAll (ADT_sl_list_push s d true).2 ds

/-- Iterated successful appends, in order of the given list; `none` if
any call hits undefined behaviour. -/
def appendAll (s : State α) : List α → Option (State α)
  | [] => some s
  | d :: ds =>
    match ADT_sl_list_append s d true with
    | none => none
    | some (_, s1) => appendAll s1 ds

/-- The chain predicate: starting from pointer `h`, the successive
nodes of the list live at exactly the addresses `addrs`, ending in a
NULL successor. -/
def chainOk (H : Heap α) : Option Nat → List Nat → Bool
  | h, [] => decide (h = none)
  | h, a :: rest =>
    decide (h = some a) &&
      match hget H a with
      | none => false
      | some nd => chainOk H nd.next rest

/-- The data stored along a list of addresses, head to tail. -/
def chainData (H : Heap α) : List Nat → List α
  | [] => []
  | a :: rest =>
    match hget H a with
    | none => chainData H rest
    | some nd => nd.data :: chainData H rest

/-- The core well-formedness invariant of a list state relative to the
addresses `addrs` of its nodes: the heap chain from the head visits
exactly `addrs`, the length field counts them, the addresses are
distinct and below the allocator counter, and the heap's live bindings
have distinct keys below the allocator counter.  (The tail field is
stated separately, because `pop` does not maintain it.) -/
abbrev ListInv (s : State α) (addrs : List Nat) : Prop :=
  chainOk s.heap s.lst.head addrs = true ∧
  s.lst.len = addrs.length ∧
  addrs.Nodup ∧
  (∀ a ∈ addrs, a < s.fresh) ∧
  (∀ p ∈ s.heap, p.1 < s.fresh) ∧
  (s.heap.map Prod.fst).Nodup

/-- Full well-formedness: the core invariant plus the tail field
pointing at the last chain address (`none` for the empty list). -/
abbrev ListWF (s : State α) (addrs : List Nat) : Prop :=
  ListInv s addrs ∧ s.lst.tail = addrs.getLast?

/-- A concrete one-element list over `Nat`: the result of pushing `7`
onto a freshly initialized list. -/
def sOne : State Nat :=
  (ADT_sl_list_push initState 7 true).2

/-- A concrete two-element list over `Nat`: the result of appending
`10` then `20` to a freshly initialized list (data order head to tail:
`10`, `20`; node addresses `0`, `1`). -/
def sTwo : Option (State Nat) :=
  appendAll initState [10, 20]

/-- C1: On an empty list, the C `ADT_sl_list_append` calls
`ADT_sl_list_push` but discards its return value, so when `malloc`
fails (`allocOk = false`) the push reports `-1` yet the append returns
`0`, hiding the allocation failure from the caller. -/
theorem C1_append_swallows_allocation_failure (s : State α) (d : α)
    (h : ADT_sl_list_length s = 0) :
    ADT_sl_list_push s d false = (-1, s) ∧
    ADT_sl_list_append s d false = some (0, s) := by
  refine ⟨rfl, ?_⟩
  simp [ADT_sl_list_append, ADT_sl_list_push, h]

/-- C1 witness: the failed append on a concrete freshly initialized
empty list returns success `0` with the state untouched. -/
theorem C1_witness :
    ADT_sl_list_length (initState : State Nat) = 0 ∧
    (ADT_sl_list_push (initState : State Nat) 5 false = (-1, initState) ∧
     ADT_sl_list_append (initState : State Nat) 5 false = some (0, initState)) :=
  ⟨rfl, C1_append_swallows_allocation_failure initState 5 rfl⟩

/-- C10: When the allocator fails, `ADT_sl_list_push` and
`ADT_sl_list_insert_after` return `-1` with the state — heap, head,
tail, length, every node — literally unchanged. -/
theorem C10_alloc_failure_leaves_list_unchanged (s : State α) (loc : Nat) (d : α) :
    ADT_sl_list_push s d false = (-1, s) ∧
    ADT_sl_list_insert_after s loc d false = some (-1, s) :=
  ⟨rfl, rfl⟩

/-- C2 counterexample: popping the single element of a concrete
one-element list (push `7` on an initialized list) leaves the length at
`0` and the head NULL, but the tail still points at address `0` — the
freed node — so invariant (b) does not hold after the pop. -/
theorem C2_counterexample_pop_keeps_stale_tail :
    (ADT_sl_list_pop sOne).map (fun r => (r.1, r.2.lst.len, r.2.lst.head, r.2.lst.tail))
      = some (7, 0, none, some 0) := by
  decide

/-- C3: concrete failing run of `ADT_sl_list_remove_after`.  On the
two-element list `10, 20` (addresses `0`, `1`, tail at `1`), removing
the successor of the head unlinks and frees the tail node `1`, but the
tail field still holds address `1`: the removed datum is `20`, the tail
field is `some 1`, address `1` is no longer allocated, the head node's
successor is NULL (so the last node reachable from head is `0`, not the
tail), and the length is `1`. -/
theorem C3_remove_after_keeps_stale_tail :
    (sTwo.bind (fun s => ADT_sl_list_remove_after s 0)).map
        (fun r => (r.1, r.2.lst.tail, hget r.2.heap 1,
          (hget r.2.heap 0).map ADT_sl_node.next, r.2.lst.len))
      = some (20, some 1, none, some none, 1) := by
  decide

/-- C8: pushing a datum (successfully) and immediately popping returns
exactly that datum, and the length after the pop equals the length
before the push; this holds for every starting state. -/
theorem C8_push_pop_roundtrip (s : State α) (d : α) :
    ∃ s1, ADT_sl_list_pop (ADT_sl_list_push s d true).2 = some (d, s1) ∧
      ADT_sl_list_length s1 = ADT_sl_list_length s := by
  refine ⟨⟨hfree ((s.fresh, ⟨d, s.lst.head⟩) :: s.heap) s.fresh, s.fresh + 1,
      ⟨s.lst.head,
        if ADT_sl_list_length s = 0 then some s.fresh else s.lst.tail,
        s.lst.len⟩⟩, ?_, rfl⟩
  simp [ADT_sl_list_push, ADT_sl_list_pop, ADT_sl_list_length, hget]

/-- Looking up the address just consed onto the heap yields the new node. -/
theorem hget_cons_self (H : Heap α) (a : Nat) (nd : ADT_sl_node α) :
    hget ((a, nd) :: H) a = some nd := by
  simp [hget]

/-- Consing a binding for a different address does not change a lookup. -/
theorem hget_cons_ne (H : Heap α) (a b : Nat) (nd : ADT_sl_node α) (h : a ≠ b) :
    hget ((a, nd) :: H) b = hget H b := by
  simp [hget, h]

/-- Freeing one address does not change lookups at other addresses. -/
theorem hget_hfree_ne (H : Heap α) (a b : Nat) (h : b ≠ a) :
    hget (hfree H a) b = hget H b := by
  induction H with
  | nil => rfl
  | cons p rest ih =>
    obtain ⟨c, nd⟩ := p
    by_cases hca : c = a
    · subst hca
      have hcb : c ≠ b := fun hh => h hh.symm
      simp [hfree, hget, hcb]
    · by_cases hcb : c = b <;> simp [hfree, hget, hca, hcb, ih, h]

/-- A lookup at an address with no binding in the heap yields `none`. -/
theorem hget_eq_none_of_not_mem (H : Heap α) (a : Nat) (h : a ∉ H.map Prod.fst) :
    hget H a = none := by
  induction H with
  | nil => rfl
  | cons p rest ih =>
    obtain ⟨c, nd⟩ := p
    simp only [List.map_cons, List.mem_cons] at h
    push_neg at h
    have hca : c ≠ a := fun hh => h.1 hh.symm
    simp [hget, hca, ih h.2]

/-- On a heap with distinct keys, a freed address no longer resolves. -/
theorem hget_hfree_self (H : Heap α) (a : Nat) (h : (H.map Prod.fst).Nodup) :
    hget (hfree H a) a = none := by
  induction H with
  | nil => rfl
  | cons p rest ih =>
    obtain ⟨c, nd⟩ := p
    simp only [List.map_cons, List.nodup_cons] at h
    by_cases hca : c = a
    · subst hca
      simp [hfree, hget_eq_none_of_not_mem rest c h.1]
    · simp [hfree, hget, hca, ih h.2]

/-- Storing at an allocated address makes lookups there see the store. -/
theorem hget_hset_self (H : Heap α) (a : Nat) (nd nd1 : ADT_sl_node α)
    (h : hget H a = some nd) : hget (hset H a nd1) a = some nd1 := by
  induction H with
  | nil => simp [hget] at h
  | cons p rest ih =>
    obtain ⟨c, nd0⟩ := p
    by_cases hca : c = a
    · simp [hset, hget, hca]
    · simp only [hget, if_neg hca] at h
      simp [hset, hget, hca, ih h]

/-- Storing at one address does not change lookups at other addresses. -/
theorem hget_hset_ne (H : Heap α) (a b : Nat) (nd1 : ADT_sl_node α) (h : b ≠ a) :
    hget (hset H a nd1) b = hget H b := by
  induction H with
  | nil => rfl
  | cons p rest ih =>
    obtain ⟨c, nd0⟩ := p
    by_cases hca : c = a
    · subst hca
      have hcb : c ≠ b := fun hh => h hh.symm
      simp [hset, hget, hcb]
    · by_cases hcb : c = b <;> simp [hset, hget, hca, hcb, ih, h]

/-- A store never changes the set (or order) of allocated addresses. -/
theorem hset_map_fst (H : Heap α) (a : Nat) (nd1 : ADT_sl_node α) :
    (hset H a nd1).map Prod.fst = H.map Prod.fst := by
  induction H with
  | nil => rfl
  | cons p rest ih =>
    obtain ⟨c, nd0⟩ := p
    by_cases hca : c = a <;> simp [hset, hca, ih]

/-- Freeing an address yields a sublist of the original heap. -/
theorem hfree_sublist (H : Heap α) (a : Nat) : List.Sublist (hfree H a) H := by
  induction H with
  | nil => simp [hfree]
  | cons p rest ih =>
    obtain ⟨c, nd⟩ := p
    by_cases hca : c = a
    · rw [hfree, if_pos hca]
      exact List.sublist_cons_self (c, nd) rest
    · rw [hfree, if_neg hca]
      exact List.Sublist.cons₂ (c, nd) ih

/-- The empty-chain case: `chainOk` on `[]` just says the pointer is NULL. -/
theorem chainOk_nil (H : Heap α) (h : Option Nat) :
    chainOk H h [] = true ↔ h = none := by
  simp [chainOk]

/-- The cons case of `chainOk`, unfolded to a proposition. -/
theorem chainOk_cons (H : Heap α) (h : Option Nat) (a : Nat) (rest : List Nat) :
    chainOk H h (a :: rest) = true ↔
      h = some a ∧ ∃ nd, hget H a = some nd ∧ chainOk H nd.next rest = true := by
  cases hg : hget H a with
  | none => simp [chainOk, hg]
  | some nd => simp [chainOk, hg]

/-- Chains only look at the heap through the addresses they visit, so
two heaps agreeing on those addresses validate the same chains. -/
theorem chainOk_congr (H1 H2 : Heap α) (addrs : List Nat)
    (hh : ∀ b ∈ addrs, hget H1 b = hget H2 b) :
    ∀ h : Option Nat, chainOk H1 h addrs = chainOk H2 h addrs := by
  induction addrs with
  | nil => intro h; rfl
  | cons a rest ih =>
    intro h
    have ha : hget H1 a = hget H2 a := hh a (by simp)
    cases hg : hget H2 a with
    | none => simp [chainOk, ha, hg]
    | some nd =>
      simp only [chainOk, ha, hg]
      rw [ih (fun b hb => hh b (by simp [hb])) nd.next]

/-- Every address visited by a valid chain is an allocated node. -/
theorem chainOk_mem (H : Heap α) (addrs : List Nat) :
    ∀ h0 : Option Nat, chainOk H h0 addrs = true →
      ∀ b ∈ addrs, ∃ nd, hget H b = some nd := by
  induction addrs with
  | nil => intro h0 _ b hb; simp at hb
  | cons a rest ih =>
    intro h0 hc b hb
    obtain ⟨-, nd, hnd, hrest⟩ := (chainOk_cons H h0 a rest).1 hc
    rcases List.mem_cons.1 hb with hb | hb
    · exact hb ▸ ⟨nd, hnd⟩
    · exact ih nd.next hrest b hb

/-- Along a valid chain every address contributes exactly one datum. -/
theorem chainData_length (H : Heap α) (addrs : List Nat) :
    ∀ h0 : Option Nat, chainOk H h0 addrs = true →
      (chainData H addrs).length = addrs.length := by
  induction addrs with
  | nil => intro h0 _; rfl
  | cons a rest ih =>
    intro h0 hc
    obtain ⟨-, nd, hnd, hrest⟩ := (chainOk_cons H h0 a rest).1 hc
    simp [chainData, hnd, ih nd.next hrest]

/-- Chain data only depends on the data stored at the visited addresses. -/
theorem chainData_congr (H1 H2 : Heap α) (addrs : List Nat)
    (hh : ∀ b ∈ addrs,
      (hget H1 b).map ADT_sl_node.data = (hget H2 b).map ADT_sl_node.data) :
    chainData H1 addrs = chainData H2 addrs := by
  induction addrs with
  | nil => rfl
  | cons a rest ih =>
    have ha := hh a (by simp)
    have hrest := ih (fun b hb => hh b (by simp [hb]))
    cases hg1 : hget H1 a with
    | none =>
      rw [hg1] at ha
      cases hg2 : hget H2 a with
      | none => simp only [chainData, hg1, hg2, hrest]
      | some nd2 => rw [hg2] at ha; simp at ha
    | some nd1 =>
      rw [hg1] at ha
      cases hg2 : hget H2 a with
      | none => rw [hg2] at ha; simp at ha
      | some nd2 =>
        rw [hg2] at ha
        have hd : nd1.data = nd2.data := by simpa using ha
        simp only [chainData, hg1, hg2, hrest, hd]

/-- The witness of a `getLast?` is a member of the list. -/
theorem mem_of_getLast_eq (l : List Nat) (t : Nat) (h : l.getLast? = some t) :
    t ∈ l := by
  induction l with
  | nil => simp at h
  | cons a rest ih =>
    cases rest with
    | nil =>
      simp only [List.getLast?_singleton, Option.some.injEq] at h
      simp [h]
    | cons b rest2 =>
      rw [List.getLast?_cons_cons] at h
      exact List.mem_cons.2 (Or.inr (ih h))

/-- Prepending to a non-empty list keeps its last element. -/
theorem getLast_cons_of_ne_nil (x : Nat) (l : List Nat) (h : l ≠ []) :
    (x :: l).getLast? = l.getLast? := by
  cases l with
  | nil => exact absurd rfl h
  | cons b rest => exact List.getLast?_cons_cons

/-- Behaviour of `ADT_sl_list_pop` on a list whose invariant holds with
a non-empty address chain `a :: rest`: the pop succeeds, returns the
head node's datum, frees the head address, moves the head pointer to
the successor, decrements the length — and leaves the tail field as it
was.  The core invariant is re-established for `rest`. -/
theorem pop_cons (s : State α) (a : Nat) (rest : List Nat)
    (h : ListInv s (a :: rest)) :
    ∃ nd, hget s.heap a = some nd ∧ s.lst.head = some a ∧
      ADT_sl_list_pop s =
        some (nd.data, ⟨hfree s.heap a, s.fresh, ⟨nd.next, s.lst.tail, rest.length⟩⟩) ∧
      ListInv (⟨hfree s.heap a, s.fresh, ⟨nd.next, s.lst.tail, rest.length⟩⟩ : State α) rest ∧
      (∀ b ∈ rest, hget (hfree s.heap a) b = hget s.heap b) ∧
      hget (hfree s.heap a) a = none := by
  obtain ⟨hc, hlen, hnd, hlt, hklt, hknd⟩ := h
  obtain ⟨hhead, nd, hga, hcrest⟩ := (chainOk_cons _ _ _ _).1 hc
  have ha_not_rest : a ∉ rest := (List.nodup_cons.1 hnd).1
  have hpres : ∀ b ∈ rest, hget (hfree s.heap a) b = hget s.heap b := fun b hb =>
    hget_hfree_ne s.heap a b (fun he => ha_not_rest (he ▸ hb))
  have hlen1 : ADT_sl_list_length s ≠ 0 := by
    simp [ADT_sl_list_length, hlen]
  refine ⟨nd, hga, hhead, ?_, ?_, hpres, hget_hfree_self s.heap a hknd⟩
  · simp only [ADT_sl_list_pop, if_pos hlen1, hhead, hga]
    have : s.lst.len - 1 = rest.length := by simp [hlen]
    rw [this]
  · refine ⟨?_, rfl, (List.nodup_cons.1 hnd).2, ?_, ?_, ?_⟩
    · rw [chainOk_congr (hfree s.heap a) s.heap rest hpres nd.next]
      exact hcrest
    · exact fun b hb => hlt b (List.mem_cons.2 (Or.inr hb))
    · exact fun p hp => hklt p ((hfree_sublist s.heap a).subset hp)
    · exact hknd.sublist (List.Sublist.map Prod.fst (hfree_sublist s.heap a))

/-- Behaviour of a successful `ADT_sl_list_push` on a well-formed list:
it returns `0`, the new node sits at the old allocator counter and
becomes the new head address, full well-formedness is re-established
for the extended chain, the stored data gains the pushed datum at the
front, and the length grows by one. -/
theorem push_wf (s : State α) (d : α) (addrs : List Nat) (h : ListWF s addrs) :
    (ADT_sl_list_push s d true).1 = 0 ∧
    ListWF (ADT_sl_list_push s d true).2 (s.fresh :: addrs) ∧
    chainData (ADT_sl_list_push s d true).2.heap (s.fresh :: addrs)
      = d :: chainData s.heap addrs ∧
    (ADT_sl_list_push s d true).2.lst.len = s.lst.len + 1 := by
  obtain ⟨⟨hc, hlen, hnd, hlt, hklt, hknd⟩, htl⟩ := h
  have hfr : s.fresh ∉ addrs := fun hm => lt_irrefl _ (hlt _ hm)
  have hfrk : s.fresh ∉ s.heap.map Prod.fst := by
    intro hm
    obtain ⟨p, hp, hpe⟩ := List.mem_map.1 hm
    exact lt_irrefl _ (hpe ▸ hklt p hp)
  have hpres : ∀ b ∈ addrs,
      hget ((s.fresh, (⟨d, s.lst.head⟩ : ADT_sl_node α)) :: s.heap) b = hget s.heap b :=
    fun b hb => hget_cons_ne _ _ _ _ (fun he => hfr (he ▸ hb))
  refine ⟨rfl, ⟨⟨?_, ?_, List.nodup_cons.2 ⟨hfr, hnd⟩, ?_, ?_, ?_⟩, ?_⟩, ?_, rfl⟩
  · show chainOk ((s.fresh, (⟨d, s.lst.head⟩ : ADT_sl_node α)) :: s.heap)
      (some s.fresh) (s.fresh :: addrs) = true
    rw [chainOk_cons]
    refine ⟨rfl, ⟨d, s.lst.head⟩, hget_cons_self _ _ _, ?_⟩
    rw [chainOk_congr _ s.heap addrs hpres s.lst.head]
    exact hc
  · show s.lst.len + 1 = (s.fresh :: addrs).length
    simp [hlen]
  · intro b hb
    show b < s.fresh + 1
    rcases List.mem_cons.1 hb with hb | hb
    · simp [hb]
    · exact Nat.lt_succ_of_lt (hlt b hb)
  · intro p hp
    show p.1 < s.fresh + 1
    rcases List.mem_cons.1 hp with hp | hp
    · simp [hp]
    · exact Nat.lt_succ_of_lt (hklt p hp)
  · show (((s.fresh, (⟨d, s.lst.head⟩ : ADT_sl_node α)) :: s.heap).map Prod.fst).Nodup
    simp only [List.map_cons, List.nodup_cons]
    exact ⟨hfrk, hknd⟩
  · show (if ADT_sl_list_length s = 0 then some s.fresh else s.lst.tail)
      = (s.fresh :: addrs).getLast?
    by_cases h0 : ADT_sl_list_length s = 0
    · have haddr : addrs = [] := by
        rw [ADT_sl_list_length] at h0
        rw [h0] at hlen
        exact (List.length_eq_zero.1 hlen.symm)
      subst haddr
      simp [h0]
    · have hne : addrs ≠ [] := by
        intro he
        rw [ADT_sl_list_length, hlen, he] at h0
        exact h0 rfl
      rw [if_neg h0, htl]
      exact (getLast_cons_of_ne_nil s.fresh addrs hne).symm
  · show chainData ((s.fresh, (⟨d, s.lst.head⟩ : ADT_sl_node α)) :: s.heap)
      (s.fresh :: addrs) = d :: chainData s.heap addrs
    simp only [chainData, hget_cons_self]
    rw [chainData_congr _ s.heap addrs (fun b hb => by rw [hpres b hb])]

/-- Updating at a different key commutes with a heap cons. -/
theorem hset_cons_ne (H : Heap α) (a b : Nat) (nd0 nd1 : ADT_sl_node α) (h : a ≠ b) :
    hset ((a, nd0) :: H) b nd1 = (a, nd0) :: hset H b nd1 := by
  simp [hset, h]

/-- Chain data distributes over list append. -/
theorem chainData_append (H : Heap α) (l1 l2 : List Nat) :
    chainData H (l1 ++ l2) = chainData H l1 ++ chainData H l2 := by
  induction l1 with
  | nil => rfl
  | cons a rest ih =>
    cases hg : hget H a <;> simp [chainData, hg, ih]

/-- Extending a chain at its tail: if the chain from `h` visits
`addrs`, ending at the allocated tail node `t`, then after allocating a
fresh node `a` with NULL successor and redirecting `t`'s successor to
`a` — exactly the heap shape built by the non-empty branch of
`ADT_sl_list_append` — the chain from `h` visits `addrs ++ [a]`. -/
theorem chainOk_snoc (H : Heap α) (t a : Nat) (d : α) (tnd : ADT_sl_node α)
    (addrs : List Nat) :
    ∀ h : Option Nat, chainOk H h addrs = true →
      addrs.getLast? = some t →
      hget H t = some tnd →
      addrs.Nodup →
      a ∉ addrs →
      chainOk ((a, (⟨d, none⟩ : ADT_sl_node α)) :: hset H t ⟨tnd.data, some a⟩) h
        (addrs ++ [a]) = true := by
  induction addrs with
  | nil => intro h _ hlast _ _ _; simp at hlast
  | cons b rest ih =>
    intro h hc hlast hgt hnd hna
    obtain ⟨hh, nd, hgb, hcrest⟩ := (chainOk_cons _ _ _ _).1 hc
    have hba : b ≠ a := fun he => hna (he ▸ List.mem_cons_self b rest)
    cases rest with
    | nil =>
      have htb : t = b := by
        simp only [List.getLast?_singleton, Option.some.injEq] at hlast
        exact hlast.symm
      rw [← htb] at hh hba
      rw [List.cons_append, List.nil_append, ← htb, chainOk_cons]
      refine ⟨hh, ⟨tnd.data, some a⟩, ?_, ?_⟩
      · rw [hget_cons_ne _ a t _ (fun he => hba he.symm)]
        exact hget_hset_self H t tnd _ hgt
      · rw [chainOk_cons]
        exact ⟨rfl, ⟨d, none⟩, hget_cons_self _ _ _, by rw [chainOk_nil]⟩
    | cons c rest2 =>
      have hlast2 : (c :: rest2).getLast? = some t := by
        rw [List.getLast?_cons_cons] at hlast
        exact hlast
      have hbt : b ≠ t := fun he =>
        (List.nodup_cons.1 hnd).1 (he ▸ mem_of_getLast_eq _ _ hlast2)
      rw [List.cons_append, chainOk_cons]
      refine ⟨hh, nd, ?_, ?_⟩
      · rw [hget_cons_ne _ a b _ (fun he => hba he.symm),
          hget_hset_ne H t b _ hbt]
        exact hgb
      · exact ih nd.next hcrest hlast2 hgt (List.nodup_cons.1 hnd).2
          (fun hm => hna (List.mem_cons.2 (Or.inr hm)))

/-- Behaviour of a successful `ADT_sl_list_append` on a well-formed
list: it returns `0` and the new node (at the old allocator counter)
becomes the last chain element and the tail; well-formedness is
re-established, the stored data gains the appended datum at the back,
and the length grows by one. -/
theorem append_wf (s : State α) (d : α) (addrs : List Nat) (h : ListWF s addrs) :
    ∃ s1, ADT_sl_list_append s d true = some (0, s1) ∧
      ListWF s1 (addrs ++ [s.fresh]) ∧
      chainData s1.heap (addrs ++ [s.fresh]) = chainData s.heap addrs ++ [d] ∧
      s1.lst.len = s.lst.len + 1 := by
  by_cases h0 : ADT_sl_list_length s = 0
  · have haddr : addrs = [] := by
      obtain ⟨⟨-, hlen, -⟩, -⟩ := h
      rw [ADT_sl_list_length] at h0
      rw [h0] at hlen
      exact List.length_eq_zero.1 hlen.symm
    obtain ⟨-, hwf, hdata, hlen1⟩ := push_wf s d addrs h
    subst haddr
    refine ⟨(ADT_sl_list_push s d true).2, ?_, ?_, ?_, hlen1⟩
    · simp [ADT_sl_list_append, h0]
    · simpa using hwf
    · simpa [chainData] using hdata
  · obtain ⟨⟨hc, hlen, hnd, hlt, hklt, hknd⟩, htl⟩ := h
    have hne : addrs ≠ [] := fun he => h0 (by rw [ADT_sl_list_length, hlen, he]; rfl)
    obtain ⟨t, ht⟩ : ∃ t, addrs.getLast? = some t := by
      cases hg : addrs.getLast? with
      | none => exact absurd (List.getLast?_eq_none_iff.1 hg) hne
      | some t => exact ⟨t, rfl⟩
    have htmem : t ∈ addrs := mem_of_getLast_eq addrs t ht
    obtain ⟨tnd, hgt⟩ := chainOk_mem s.heap addrs s.lst.head hc t htmem
    have hta : t ≠ s.fresh := Nat.ne_of_lt (hlt t htmem)
    have hfr : s.fresh ∉ addrs := fun hm => lt_irrefl _ (hlt _ hm)
    have hfrk : s.fresh ∉ s.heap.map Prod.fst := by
      intro hm
      obtain ⟨p, hp, hpe⟩ := List.mem_map.1 hm
      exact lt_irrefl _ (hpe ▸ hklt p hp)
    have hget1 : hget ((s.fresh, (⟨d, none⟩ : ADT_sl_node α)) :: s.heap) t = some tnd := by
      rw [hget_cons_ne _ _ _ _ (fun he => hta he.symm)]
      exact hgt
    have hsn : setNext ((s.fresh, (⟨d, none⟩ : ADT_sl_node α)) :: s.heap) t (some s.fresh)
        = some ((s.fresh, (⟨d, none⟩ : ADT_sl_node α))
            :: hset s.heap t ⟨tnd.data, some s.fresh⟩) := by
      simp only [setNext, hget1]
      rw [hset_cons_ne _ _ _ _ _ (fun he => hta he.symm)]
    have htls : s.lst.tail = some t := by rw [htl, ht]
    refine ⟨⟨(s.fresh, (⟨d, none⟩ : ADT_sl_node α))
        :: hset s.heap t ⟨tnd.data, some s.fresh⟩, s.fresh + 1,
        ⟨s.lst.head, some s.fresh, s.lst.len + 1⟩⟩, ?_, ⟨⟨?_, ?_, ?_, ?_, ?_, ?_⟩, ?_⟩, ?_, rfl⟩
    · simp [ADT_sl_list_append, h0, htls, hsn]
    · exact chainOk_snoc s.heap t s.fresh d tnd addrs s.lst.head hc ht hgt hnd hfr
    · show s.lst.len + 1 = (addrs ++ [s.fresh]).length
      simp [hlen]
    · rw [List.nodup_append]
      refine ⟨hnd, List.nodup_singleton _, fun x hx hx2 => ?_⟩
      have hxe : x = s.fresh := by simpa using hx2
      exact hfr (hxe ▸ hx)
    · intro b hb
      show b < s.fresh + 1
      rcases List.mem_append.1 hb with hb | hb
      · exact Nat.lt_succ_of_lt (hlt b hb)
      · have : b = s.fresh := by simpa using hb
        simp [this]
    · intro p hp
      show p.1 < s.fresh + 1
      rcases List.mem_cons.1 hp with hp | hp
      · simp [hp]
      · have hpk : p.1 ∈ (hset s.heap t (⟨tnd.data, some s.fresh⟩ : ADT_sl_node α)).map
            Prod.fst := List.mem_map_of_mem Prod.fst hp
        rw [hset_map_fst] at hpk
        obtain ⟨q, hq, hqe⟩ := List.mem_map.1 hpk
        exact hqe ▸ Nat.lt_succ_of_lt (hklt q hq)
    · show ((( s.fresh, (⟨d, none⟩ : ADT_sl_node α))
        :: hset s.heap t ⟨tnd.data, some s.fresh⟩).map Prod.fst).Nodup
      simp only [List.map_cons, List.nodup_cons, hset_map_fst]
      exact ⟨hfrk, hknd⟩
    · show some s.fresh = (addrs ++ [s.fresh]).getLast?
      rw [List.getLast?_append_cons]
      rfl
    · rw [chainData_append]
      congr 1
      · apply chainData_congr
        intro b hb
        by_cases hbt : b = t
        · subst hbt
          rw [hget_cons_ne _ _ _ _ (fun he => hta he.symm),
            hget_hset_self s.heap b tnd _ hgt, hgt]
          rfl
        · rw [hget_cons_ne _ _ _ _ (fun he => hfr (by rw [he]; exact hb)),
            hget_hset_ne s.heap t b _ hbt]
      · simp [chainData, hget_cons_self]

/-- A freshly initialized list is well-formed with the empty chain. -/
theorem initState_wf : ListWF (initState : State α) [] := by
  refine ⟨⟨rfl, rfl, List.nodup_nil, ?_, ?_, List.nodup_nil⟩, rfl⟩
  · intro a ha
    exact absurd ha (List.not_mem_nil a)
  · intro p hp
    exact absurd hp (List.not_mem_nil p)

/-- Running the destroy loop with fuel equal to the chain length on a
state satisfying the core invariant pops every node: the destructor
receives exactly the chain data, in order, and the loop ends with the
length field at zero. -/
theorem destroyLoop_spec (addrs : List Nat) :
    ∀ s : State α, ListInv s addrs →
      ∃ s1, destroyLoop addrs.length s = (chainData s.heap addrs, s1) ∧
        s1.lst.len = 0 := by
  induction addrs with
  | nil =>
    intro s h
    exact ⟨s, rfl, by rw [h.2.1]; rfl⟩
  | cons a rest ih =>
    intro s h
    obtain ⟨nd, hga, hhead, hpop, hinv, hpres, -⟩ := pop_cons s a rest h
    obtain ⟨s1, hloop, hlen0⟩ := ih _ hinv
    have hloop2 : destroyLoop rest.length
        (⟨hfree s.heap a, s.fresh, ⟨nd.next, s.lst.tail, rest.length⟩⟩ : State α)
        = (chainData (hfree s.heap a) rest, s1) := hloop
    have hlen1 : ADT_sl_list_length s ≠ 0 := by
      simp [ADT_sl_list_length, h.2.1]
    have hcd : chainData (hfree s.heap a) rest = chainData s.heap rest :=
      chainData_congr _ _ rest (fun b hb => by rw [hpres b hb])
    refine ⟨s1, ?_, hlen0⟩
    show destroyLoop (rest.length + 1) s = (chainData s.heap (a :: rest), s1)
    rw [destroyLoop, if_pos hlen1, hpop]
    simp only [hloop2, hcd]
    simp [chainData, hga]

/-- C5: `ADT_sl_list_destroy` on a well-formed list of `n` elements
hands the destructor exactly the `n` stored data, one call per element
in head-to-tail order, and leaves the length at `0` and both head and
tail NULL. -/
theorem C5_destroy_spec (s : State α) (addrs : List Nat) (h : ListInv s addrs) :
    (ADT_sl_list_destroy s).1 = chainData s.heap addrs ∧
    (ADT_sl_list_destroy s).1.length = ADT_sl_list_length s ∧
    ADT_sl_list_length (ADT_sl_list_destroy s).2 = 0 ∧
    (ADT_sl_list_destroy s).2.lst.head = none ∧
    (ADT_sl_list_destroy s).2.lst.tail = none := by
  obtain ⟨s1, hloop, hlen0⟩ := destroyLoop_spec addrs s h
  have hfuel : ADT_sl_list_length s = addrs.length := by
    rw [ADT_sl_list_length, h.2.1]
  refine ⟨?_, ?_, ?_, rfl, rfl⟩
  · show (destroyLoop (ADT_sl_list_length s) s).1 = chainData s.heap addrs
    rw [hfuel, hloop]
  · show (destroyLoop (ADT_sl_list_length s) s).1.length = ADT_sl_list_length s
    rw [hfuel, hloop]
    exact chainData_length s.heap addrs s.lst.head h.1
  · show (destroyLoop (ADT_sl_list_length s) s).2.lst.len = 0
    rw [hfuel, hloop]
    exact hlen0

/-- C5 witness: destroying a concrete one-element list calls the
destructor once, on the single stored datum, and zeroes the list. -/
theorem C5_witness :
    ListInv sOne [0] ∧
    ((ADT_sl_list_destroy sOne).1 = chainData sOne.heap [0] ∧
     (ADT_sl_list_destroy sOne).1.length = ADT_sl_list_length sOne ∧
     ADT_sl_list_length (ADT_sl_list_destroy sOne).2 = 0 ∧
     (ADT_sl_list_destroy sOne).2.lst.head = none ∧
     (ADT_sl_list_destroy sOne).2.lst.tail = none) :=
  ⟨by decide, C5_destroy_spec sOne [0] (by decide)⟩

/-- C4: on a well-formed list, `ADT_sl_list_pop` aborts (fails its
assert) exactly when the list is empty; on any non-empty list it
returns the head node's datum, frees the head node, makes the head's
successor the new head, and decrements the length by one. -/
theorem C4_pop_spec (s : State α) (addrs : List Nat) (h : ListInv s addrs) :
    (ADT_sl_list_pop s = none ↔ ADT_sl_list_length s = 0) ∧
    (∀ a rest, addrs = a :: rest →
      ∃ nd s1, hget s.heap a = some nd ∧ s.lst.head = some a ∧
        ADT_sl_list_pop s = some (nd.data, s1) ∧
        s1.lst.head = nd.next ∧ hget s1.heap a = none ∧
        s1.lst.len + 1 = s.lst.len) := by
  constructor
  · constructor
    · intro hnone
      by_contra hlen
      cases haddr : addrs with
      | nil =>
        rw [ADT_sl_list_length, h.2.1, haddr] at hlen
        exact hlen rfl
      | cons a rest =>
        obtain ⟨nd, -, -, hpop, -⟩ := pop_cons s a rest (haddr ▸ h)
        rw [hpop] at hnone
        exact Option.noConfusion hnone
    · intro hlen
      simp [ADT_sl_list_pop, hlen]
  · intro a rest he
    subst he
    obtain ⟨nd, hga, hhead, hpop, -, -, hfa⟩ := pop_cons s a rest h
    refine ⟨nd, _, hga, hhead, hpop, rfl, hfa, ?_⟩
    rw [h.2.1]
    rfl

/-- C4 witness: on a concrete one-element list the pop succeeds and
behaves as specified; on the empty side the equivalence is inhabited. -/
theorem C4_witness :
    ListInv sOne [0] ∧
    ((ADT_sl_list_pop sOne = none ↔ ADT_sl_list_length sOne = 0) ∧
     (∀ a rest, ([0] : List Nat) = a :: rest →
       ∃ nd s1, hget sOne.heap a = some nd ∧ sOne.lst.head = some a ∧
         ADT_sl_list_pop sOne = some (nd.data, s1) ∧
         s1.lst.head = nd.next ∧ hget s1.heap a = none ∧
         s1.lst.len + 1 = sOne.lst.len)) :=
  ⟨by decide, C4_pop_spec sOne [0] (by decide)⟩

/-- C2 amended: popping the only element of a well-formed one-element
list leaves the length at zero and the head NULL, but does not reset
the tail: the tail field still holds the address of the just-freed
node, which is no longer allocated. -/
theorem C2_amended_pop_singleton (s : State α) (a : Nat) (h : ListWF s [a]) :
    ∃ d s1, ADT_sl_list_pop s = some (d, s1) ∧
      ADT_sl_list_length s1 = 0 ∧ s1.lst.head = none ∧
      s1.lst.tail = some a ∧ hget s1.heap a = none := by
  obtain ⟨hinv, htl⟩ := h
  obtain ⟨nd, hga, hhead, hpop, -, -, hfa⟩ := pop_cons s a [] hinv
  have hnext : nd.next = none := by
    obtain ⟨-, nd2, hga2, hc⟩ := (chainOk_cons _ _ _ _).1 hinv.1
    rw [hga] at hga2
    cases Option.some.inj hga2
    exact (chainOk_nil _ _).1 hc
  refine ⟨nd.data, _, hpop, rfl, hnext, ?_, hfa⟩
  show s.lst.tail = some a
  rw [htl]
  rfl

/-- C2 amended witness: the concrete one-element list of
`C2_counterexample_pop_keeps_stale_tail`, popped through the amended
statement. -/
theorem C2_witness :
    ListWF sOne [0] ∧
    (∃ d s1, ADT_sl_list_pop sOne = some (d, s1) ∧
      ADT_sl_list_length s1 = 0 ∧ s1.lst.head = none ∧
      s1.lst.tail = some 0 ∧ hget s1.heap 0 = none) :=
  ⟨by decide, C2_amended_pop_singleton sOne 0 (by decide)⟩

/-- C9: a successful `ADT_sl_list_insert_after` at a member node `loc`
of a well-formed list returns `0`, stores the new datum in a fresh node
whose successor is `loc`'s old successor, redirects `loc`'s successor
to the fresh node (leaving `loc`'s datum unchanged), increments the
length by one, and makes the fresh node the tail exactly when `loc` was
the tail. -/
theorem C9_insert_after_spec (s : State α) (addrs : List Nat) (loc : Nat) (d : α)
    (h : ListInv s addrs) (hloc : loc ∈ addrs) :
    ∃ locNd s1,
      hget s.heap loc = some locNd ∧
      ADT_sl_list_insert_after s loc d true = some (0, s1) ∧
      hget s1.heap s.fresh = some ⟨d, locNd.next⟩ ∧
      hget s1.heap loc = some ⟨locNd.data, some s.fresh⟩ ∧
      s1.lst.len = s.lst.len + 1 ∧
      (s.lst.tail = some loc → s1.lst.tail = some s.fresh) ∧
      (s.lst.tail ≠ some loc → s1.lst.tail = s.lst.tail) := by
  obtain ⟨hc, hlen, hnd, hlt, hklt, hknd⟩ := h
  obtain ⟨locNd, hgl⟩ := chainOk_mem s.heap addrs s.lst.head hc loc hloc
  have hlf : loc ≠ s.fresh := Nat.ne_of_lt (hlt loc hloc)
  have hget1 : hget ((s.fresh, (⟨d, locNd.next⟩ : ADT_sl_node α)) :: s.heap) loc
      = some locNd := by
    rw [hget_cons_ne _ _ _ _ (fun he => hlf he.symm)]
    exact hgl
  have hsn : setNext ((s.fresh, (⟨d, locNd.next⟩ : ADT_sl_node α)) :: s.heap) loc
      (some s.fresh)
      = some ((s.fresh, (⟨d, locNd.next⟩ : ADT_sl_node α))
          :: hset s.heap loc ⟨locNd.data, some s.fresh⟩) := by
    simp only [setNext, hget1]
    rw [hset_cons_ne _ _ _ _ _ (fun he => hlf he.symm)]
  refine ⟨locNd, ⟨(s.fresh, (⟨d, locNd.next⟩ : ADT_sl_node α))
      :: hset s.heap loc ⟨locNd.data, some s.fresh⟩, s.fresh + 1,
      ⟨s.lst.head, if s.lst.tail = some loc then some s.fresh else s.lst.tail,
        s.lst.len + 1⟩⟩, hgl, ?_, ?_, ?_, rfl, ?_, ?_⟩
  · simp [ADT_sl_list_insert_after, hgl, hsn]
  · exact hget_cons_self _ _ _
  · show hget ((s.fresh, (⟨d, locNd.next⟩ : ADT_sl_node α))
      :: hset s.heap loc ⟨locNd.data, some s.fresh⟩) loc
      = some ⟨locNd.data, some s.fresh⟩
    rw [hget_cons_ne _ _ _ _ (fun he => hlf he.symm)]
    exact hget_hset_self s.heap loc locNd _ hgl
  · intro ht
    show (if s.lst.tail = some loc then some s.fresh else s.lst.tail) = some s.fresh
    rw [if_pos ht]
  · intro ht
    show (if s.lst.tail = some loc then some s.fresh else s.lst.tail) = s.lst.tail
    rw [if_neg ht]

/-- C9 witness: inserting after the head (and tail) node of a concrete
one-element list. -/
theorem C9_witness :
    ListInv sOne [0] ∧ 0 ∈ ([0] : List Nat) ∧
    (∃ locNd s1, hget sOne.heap 0 = some locNd ∧
      ADT_sl_list_insert_after sOne 0 9 true = some (0, s1) ∧
      hget s1.heap sOne.fresh = some ⟨9, locNd.next⟩ ∧
      hget s1.heap 0 = some ⟨locNd.data, some sOne.fresh⟩ ∧
      s1.lst.len = sOne.lst.len + 1 ∧
      (sOne.lst.tail = some 0 → s1.lst.tail = some sOne.fresh) ∧
      (sOne.lst.tail ≠ some 0 → s1.lst.tail = sOne.lst.tail)) :=
  ⟨by decide, by decide, C9_insert_after_spec sOne [0] 0 9 (by decide) (by decide)⟩

/-- Iterated successful pushes starting from any well-formed list keep
the list well-formed, prepend the pushed data in reverse order, and add
one to the length per push. -/
theorem pushAll_wf (xs : List α) :
    ∀ (s : State α) (addrs : List Nat), ListWF s addrs →
      ∃ addrs2, ListWF (pushAll s xs) addrs2 ∧
        chainData (pushAll s xs).heap addrs2 = xs.reverse ++ chainData s.heap addrs ∧
        (pushAll s xs).lst.len = s.lst.len + xs.length := by
  induction xs with
  | nil =>
    intro s addrs h
    exact ⟨addrs, h, by simp [pushAll], by simp [pushAll]⟩
  | cons d ds ih =>
    intro s addrs h
    obtain ⟨-, hwf, hdata, hlen⟩ := push_wf s d addrs h
    obtain ⟨addrs2, hwf2, hdata2, hlen2⟩ := ih _ _ hwf
    have hstep : pushAll s (d :: ds) = pushAll (ADT_sl_list_push s d true).2 ds := rfl
    refine ⟨addrs2, hstep ▸ hwf2, ?_, ?_⟩
    · rw [hstep, hdata2, hdata]
      simp
    · rw [hstep, hlen2, hlen]
      simp only [List.length_cons]
      omega

/-- C6: pushing any sequence of data onto a freshly initialized list
(all allocations succeeding) yields a well-formed list whose
head-to-tail data is the reverse of the insertion order, with length
equal to the number of pushes; concretely, after pushing `x` then `y`,
the head node (address 1) holds `y`, the tail node (address 0) holds
`x`, and the head's successor is the tail. -/
theorem C6_push_reverse_order (β : Type) :
    (∀ xs : List β, ∃ addrs, ListWF (pushAll (initState : State β) xs) addrs ∧
      chainData (pushAll (initState : State β) xs).heap addrs = xs.reverse ∧
      ADT_sl_list_length (pushAll (initState : State β) xs) = xs.length) ∧
    ((pushAll (initState : State Char) ['x', 'y']).lst.head = some 1 ∧
     (pushAll (initState : State Char) ['x', 'y']).lst.tail = some 0 ∧
     hget (pushAll (initState : State Char) ['x', 'y']).heap 1 = some ⟨'y', some 0⟩ ∧
     hget (pushAll (initState : State Char) ['x', 'y']).heap 0 = some ⟨'x', none⟩ ∧
     ADT_sl_list_length (pushAll (initState : State Char) ['x', 'y']) = 2) := by
  constructor
  · intro xs
    obtain ⟨addrs, hwf, hdata, hlen⟩ := pushAll_wf xs initState [] initState_wf
    refine ⟨addrs, hwf, ?_, ?_⟩
    · simpa [chainData] using hdata
    · rw [ADT_sl_list_length, hlen]
      simp [initState, ADT_sl_list_init]
  · exact ⟨rfl, rfl, rfl, rfl, rfl⟩

/-- Iterated successful appends starting from any well-formed list keep
the list well-formed, extend the stored data at the back in insertion
order, and add one to the length per append. -/
theorem appendAll_wf (xs : List α) :
    ∀ (s : State α) (addrs : List Nat), ListWF s addrs →
      ∃ t addrs2, appendAll s xs = some t ∧ ListWF t addrs2 ∧
        chainData t.heap addrs2 = chainData s.heap addrs ++ xs ∧
        t.lst.len = s.lst.len + xs.length := by
  induction xs with
  | nil =>
    intro s addrs h
    exact ⟨s, addrs, rfl, h, by simp [appendAll], by simp [appendAll]⟩
  | cons d ds ih =>
    intro s addrs h
    obtain ⟨s1, happ, hwf1, hdata1, hlen1⟩ := append_wf s d addrs h
    obtain ⟨t, addrs2, hall, hwf2, hdata2, hlen2⟩ := ih s1 _ hwf1
    refine ⟨t, addrs2, ?_, hwf2, ?_, ?_⟩
    · simp only [appendAll, happ]
      exact hall
    · rw [hdata2, hdata1]
      simp
    · rw [hlen2, hlen1]
      simp only [List.length_cons]
      omega

/-- C7: appending any sequence of data to a freshly initialized list
(all allocations succeeding) yields a well-formed list whose
head-to-tail data equals the insertion order, with length equal to the
number of appends. -/
theorem C7_append_insertion_order (β : Type) (xs : List β) :
    ∃ t addrs, appendAll (initState : State β) xs = some t ∧ ListWF t addrs ∧
      chainData t.heap addrs = xs ∧ ADT_sl_list_length t = xs.length := by
  obtain ⟨t, addrs, hall, hwf, hdata, hlen⟩ := appendAll_wf xs initState [] initState_wf
  refine ⟨t, addrs, hall, hwf, ?_, ?_⟩
  · simpa [chainData] using hdata
  · rw [ADT_sl_list_length, hlen]
    simp [initState, ADT_sl_list_init]

/-- C6 witness: the push-order theorem instantiated on a concrete
two-element sequence. -/
theorem C6_witness :
    ∃ addrs, ListWF (pushAll (initState : State Nat) [3, 4]) addrs ∧
      chainData (pushAll (initState : State Nat) [3, 4]).heap addrs = [4, 3] ∧
      ADT_sl_list_length (pushAll (initState : State Nat) [3, 4]) = 2 := by
  have h := (C6_push_reverse_order Nat).1 [3, 4]
  simpa using h

/-- C7 witness: the append-order theorem instantiated on a concrete
two-element sequence. -/
theorem C7_witness :
    ∃ t addrs, appendAll (initState : State Nat) [3, 4] = some t ∧ ListWF t addrs ∧
      chainData t.heap addrs = [3, 4] ∧ ADT_sl_list_length t = 2 := by
  have h := C7_append_insertion_order Nat [3, 4]
  simpa using h

/-- C8 witness: the push-pop round trip on a concrete empty list and
datum. -/
theorem C8_witness :
    ∃ s1, ADT_sl_list_pop (ADT_sl_list_push (initState : State Nat) 42 true).2
        = some (42, s1) ∧
      ADT_sl_list_length s1 = ADT_sl_list_length (initState : State Nat) :=
  C8_push_pop_roundtrip initState 42

/-- C10 witness: allocation failure on a concrete state leaves it
untouched. -/
theorem C10_witness :
    ADT_sl_list_push (initState : State Nat) 1 false = (-1, initState) ∧
    ADT_sl_list_insert_after (initState : State Nat) 0 1 false = some (-1, initState) :=
  C10_alloc_failure_leaves_list_unchanged initState 0 1
